import Mathlib

/-!
Verification development for the repository's single source file,
src/create-test-audio.py. The script synthesizes a two-tone sine sequence
(`create_test_audio`, lines 12-46) and writes it as a mono 16-bit PCM
RIFF/WAVE file.

Modelling conventions:
* Python `math.sin` and `math.pi` are floating-point; the embedding carries
  them as parameters `sinQ : ℚ → ℚ` and `piQ : ℚ`. Claims that need the
  range of the sine function take the hypothesis `∀ x, |sinQ x| ≤ 1`,
  which holds for the library function.
* Python `int(x)` truncates toward zero (`intTrunc`); `//` and `%` are
  floor division and the matching modulus (`Int.fdiv`, `Int.fmod`).
* A Python `ZeroDivisionError` (or `struct.error`) is modelled as `none`.
* The `wave` standard-library module is not part of the repository's
  sources; the container layout is modelled from the spec (section 4.2).
-/

namespace CreateTestAudio

/-- Python `int(q)` on a rational value: truncation toward zero
(floor for nonnegative arguments, ceiling for negative ones). -/
def intTrunc (q : ℚ) : ℤ := if 0 ≤ q then ⌊q⌋ else ⌈q⌉

/-- The frequency update run at the end of loop iteration `i`
(lines 26-27): when `i % (sample_rate // 2) == 0`, the new frequency is
`440 if frequency == 440 else 523`. -/
def freqStep (sample_rate : ℤ) (i : ℕ) (frequency : ℤ) : ℤ :=
  if Int.fmod (i : ℤ) (Int.fdiv sample_rate 2) = 0 then
    (if frequency = 440 then 440 else 523)
  else frequency

/-- The frequency in effect when the sample at index `i` is computed:
the base frequency threaded through the updates of iterations `0 .. i-1`. -/
def activeFreq (sample_rate base : ℤ) : ℕ → ℤ
  | 0 => base
  | n + 1 => freqStep sample_rate n (activeFreq sample_rate base n)

/-- The quantized sample at index `i` for frequency `f` (lines 22-30):
`int(math.sin(2 * math.pi * f * (i / sample_rate)) * 0.3 * 32767)`. -/
def sampleAt (sinQ : ℚ → ℚ) (piQ : ℚ) (sample_rate f : ℤ) (i : ℕ) : ℤ :=
  intTrunc (sinQ (2 * piQ * (f : ℚ) * ((i : ℚ) / (sample_rate : ℚ))) * (3 / 10) * 32767)

/-- One iteration of the generation loop (lines 20-31), on the state
(current frequency, samples so far). `none` models the Python
`ZeroDivisionError` raised by `float(i) / sample_rate` when the sample
rate is zero, or by `i % (sample_rate // 2)` when `sample_rate // 2` is
zero. The sample is computed with the pre-update frequency. -/
def loopBody (sinQ : ℚ → ℚ) (piQ : ℚ) (sample_rate : ℤ)
    (st : ℤ × List ℤ) (i : ℕ) : Option (ℤ × List ℤ) :=
  if sample_rate = 0 then none
  else if Int.fdiv sample_rate 2 = 0 then none
  else some (freqStep sample_rate i st.1, st.2 ++ [sampleAt sinQ piQ sample_rate st.1 i])

/-- The Signal Generator part of `create_test_audio` (lines 16-31):
`num_samples = int(duration * sample_rate)` followed by the loop
`for i in range(num_samples)`. -/
def create_test_audio_samples (sinQ : ℚ → ℚ) (piQ : ℚ)
    (duration : ℚ) (frequency sample_rate : ℤ) : Option (List ℤ) :=
  let num_samples := intTrunc (duration * (sample_rate : ℚ))
  ((List.range num_samples.toNat).foldlM (loopBody sinQ piQ sample_rate)
    (frequency, [])).map Prod.snd

/-- The closed form of a successful generation run: the sample at each
index `i`, computed at the frequency `activeFreq` assigns to `i`. -/
def genSamples (sinQ : ℚ → ℚ) (piQ : ℚ) (frequency sample_rate : ℤ) (n : ℕ) : List ℤ :=
  (List.range n).map fun i =>
    sampleAt sinQ piQ sample_rate (activeFreq sample_rate frequency i) i

/-- The two little-endian bytes of a 16-bit value, after reduction into
`[0, 65535]` (two's complement). -/
def le16 (s : ℤ) : List ℕ :=
  [(Int.emod s 65536).toNat % 256, (Int.emod s 65536).toNat / 256]

/-- `struct.pack` of a single `'<h'` field (line 40): two little-endian
bytes for an in-range 16-bit signed value, a `struct.error` (`none`)
otherwise. -/
def packH (s : ℤ) : Option (List ℕ) :=
  if -32768 ≤ s ∧ s ≤ 32767 then some (le16 s) else none

/-- `struct.pack('<' + 'h' * len(samples), *samples)` (line 40): each
sample in order as two little-endian bytes, failing if any value is out
of the 16-bit signed range. -/
def packSamples (samples : List ℤ) : Option (List ℕ) :=
  (samples.mapM packH).map List.flatten

/-- The two little-endian bytes of a 16-bit header field. -/
def u16le (v : ℕ) : List ℕ := [v % 256, v / 256 % 256]

/-- The four little-endian bytes of a 32-bit header field. -/
def u32le (v : ℕ) : List ℕ :=
  [v % 256, v / 256 % 256, v / 65536 % 256, v / 16777216 % 256]

/-- Modelled from the spec: the RIFF/WAVE byte stream of section 4.2,
standing in for the Python `wave` module used at lines 34-41 (the module
itself is not part of the repository's sources). Fields, in order:
"RIFF", chunk size `36 + data length`, "WAVE", "fmt ", sub-chunk size 16,
audio format 1 (PCM), channel count 1, sample rate, byte rate, block
align 2, bits per sample 16, "data", data byte length, raw data bytes. -/
def wavBytes (sample_rate : ℕ) (data : List ℕ) : List ℕ :=
  [82, 73, 70, 70] ++ u32le (36 + data.length) ++
  [87, 65, 86, 69] ++
  [102, 109, 116, 32] ++ u32le 16 ++ u16le 1 ++ u16le 1 ++
  u32le sample_rate ++ u32le (sample_rate * 2) ++ u16le 2 ++ u16le 16 ++
  [100, 97, 116, 97] ++ u32le data.length ++ data

/-- The whole program (lines 16-41): generate the samples, pack them,
and write them into the RIFF/WAVE container. -/
def create_test_audio (sinQ : ℚ → ℚ) (piQ : ℚ)
    (duration : ℚ) (frequency sample_rate : ℤ) : Option (List ℕ) := do
  let samples ← create_test_audio_samples sinQ piQ duration frequency sample_rate
  let packed ← packSamples samples
  return wavBytes sample_rate.toNat packed

/-- A standard decoder's read of a 16-bit little-endian field. -/
def readU16 (bs : List ℕ) (off : ℕ) : ℕ :=
  bs.getD off 0 + 256 * bs.getD (off + 1) 0

/-- A standard decoder's read of a 32-bit little-endian field. -/
def readU32 (bs : List ℕ) (off : ℕ) : ℕ :=
  bs.getD off 0 + 256 * bs.getD (off + 1) 0 +
  65536 * bs.getD (off + 2) 0 + 16777216 * bs.getD (off + 3) 0

/-- The channel count field, at byte offset 22. -/
def decodeNumChannels (bs : List ℕ) : ℕ := readU16 bs 22

/-- The sample rate field, at byte offset 24. -/
def decodeSampleRate (bs : List ℕ) : ℕ := readU32 bs 24

/-- The bits-per-sample field, at byte offset 34. -/
def decodeBitsPerSample (bs : List ℕ) : ℕ := readU16 bs 34

/-- The data-chunk byte length field, at byte offset 40. -/
def decodeDataLen (bs : List ℕ) : ℕ := readU32 bs 40

/-- The frame count a standard decoder reports: data length divided by
the frame size (channels times bytes per sample). -/
def decodeFrameCount (bs : List ℕ) : ℕ :=
  decodeDataLen bs / (decodeNumChannels bs * (decodeBitsPerSample bs / 8))

/-- The "RIFF", "WAVE" and "data" tags at their required offsets. -/
def hasRiffWaveTags (bs : List ℕ) : Bool :=
  decide (bs.take 4 = [82, 73, 70, 70]) &&
  decide (((bs.drop 8).take 4) = [87, 65, 86, 69]) &&
  decide (((bs.drop 36).take 4) = [100, 97, 116, 97])

/-- A loop iteration that divides by a nonzero sample rate and a nonzero
half-rate succeeds and extends the state as the loop body describes. -/
theorem loopBody_eq_some (sinQ : ℚ → ℚ) (piQ : ℚ) (sample_rate : ℤ)
    (st : ℤ × List ℤ) (i : ℕ)
    (h0 : sample_rate ≠ 0) (h2 : Int.fdiv sample_rate 2 ≠ 0) :
    loopBody sinQ piQ sample_rate st i =
      some (freqStep sample_rate i st.1,
        st.2 ++ [sampleAt sinQ piQ sample_rate st.1 i]) := by
  simp [loopBody, h0, h2]

/-- The generation loop over `range n`, run from the base frequency and an
empty accumulator, reaches the frequency `activeFreq` assigns to `n` and
accumulates exactly the closed-form samples. -/
theorem foldlM_range_eq (sinQ : ℚ → ℚ) (piQ : ℚ) (frequency sample_rate : ℤ)
    (h0 : sample_rate ≠ 0) (h2 : Int.fdiv sample_rate 2 ≠ 0) (n : ℕ) :
    (List.range n).foldlM (loopBody sinQ piQ sample_rate) (frequency, ([] : List ℤ)) =
      some (activeFreq sample_rate frequency n,
        genSamples sinQ piQ frequency sample_rate n) := by
  induction n with
  | zero => simp [genSamples, activeFreq]
  | succ n ih =>
    rw [List.range_succ, List.foldlM_append, ih]
    simp only [Option.bind_eq_bind, Option.some_bind, List.foldlM_cons, List.foldlM_nil]
    rw [loopBody_eq_some sinQ piQ sample_rate _ _ h0 h2]
    simp [genSamples, activeFreq, List.range_succ]

/-- Closed form of a successful generation run. -/
theorem create_samples_eq (sinQ : ℚ → ℚ) (piQ : ℚ)
    (duration : ℚ) (frequency sample_rate : ℤ)
    (h0 : sample_rate ≠ 0) (h2 : Int.fdiv sample_rate 2 ≠ 0) :
    create_test_audio_samples sinQ piQ duration frequency sample_rate =
      some (genSamples sinQ piQ frequency sample_rate
        (intTrunc (duration * (sample_rate : ℚ))).toNat) := by
  rw [create_test_audio_samples,
    foldlM_range_eq sinQ piQ frequency sample_rate h0 h2]
  rfl

/-- When the first loop iteration would divide by zero and the loop runs at
least once, generation fails. -/
theorem create_samples_eq_none (sinQ : ℚ → ℚ) (piQ : ℚ)
    (duration : ℚ) (frequency sample_rate : ℤ)
    (hbad : sample_rate = 0 ∨ Int.fdiv sample_rate 2 = 0)
    (hn : 0 < (intTrunc (duration * (sample_rate : ℚ))).toNat) :
    create_test_audio_samples sinQ piQ duration frequency sample_rate = none := by
  rw [create_test_audio_samples]
  obtain ⟨m, hm⟩ : ∃ m, (intTrunc (duration * (sample_rate : ℚ))).toNat = m + 1 :=
    ⟨(intTrunc (duration * (sample_rate : ℚ))).toNat - 1, by omega⟩
  rw [hm, List.range_succ_eq_map, List.foldlM_cons]
  have hnone : loopBody sinQ piQ sample_rate (frequency, []) 0 = none := by
    rcases hbad with h | h <;> simp [loopBody, h]
  rw [hnone]
  rfl

/-- A produced sample sequence always has `int(duration * sample_rate)`
entries (`toNat`: zero when that product is negative). -/
theorem create_samples_length (sinQ : ℚ → ℚ) (piQ : ℚ)
    (duration : ℚ) (frequency sample_rate : ℤ) (out : List ℤ)
    (h : create_test_audio_samples sinQ piQ duration frequency sample_rate = some out) :
    out.length = (intTrunc (duration * (sample_rate : ℚ))).toNat := by
  by_cases hbad : sample_rate = 0 ∨ Int.fdiv sample_rate 2 = 0
  · rcases Nat.eq_zero_or_pos (intTrunc (duration * (sample_rate : ℚ))).toNat with hz | hp
    · rw [create_test_audio_samples, hz] at h
      simp only [List.range_zero, List.foldlM_nil] at h
      cases h
      simp [hz]
    · rw [create_samples_eq_none sinQ piQ duration frequency sample_rate hbad hp] at h
      cases h
  · push_neg at hbad
    rw [create_samples_eq sinQ piQ duration frequency sample_rate hbad.1 hbad.2] at h
    cases h
    simp [genSamples]

/-- Each entry of a produced sample sequence is the closed-form sample at
its index, at the frequency `activeFreq` assigns to that index. -/
theorem create_samples_get (sinQ : ℚ → ℚ) (piQ : ℚ)
    (duration : ℚ) (frequency sample_rate : ℤ) (out : List ℤ)
    (h : create_test_audio_samples sinQ piQ duration frequency sample_rate = some out)
    (i : ℕ) (hi : i < out.length) :
    out.get ⟨i, hi⟩ = sampleAt sinQ piQ sample_rate (activeFreq sample_rate frequency i) i := by
  by_cases hbad : sample_rate = 0 ∨ Int.fdiv sample_rate 2 = 0
  · exfalso
    rcases Nat.eq_zero_or_pos (intTrunc (duration * (sample_rate : ℚ))).toNat with hz | hp
    · have hlen := create_samples_length sinQ piQ duration frequency sample_rate out h
      omega
    · rw [create_samples_eq_none sinQ piQ duration frequency sample_rate hbad hp] at h
      cases h
  · push_neg at hbad
    rw [create_samples_eq sinQ piQ duration frequency sample_rate hbad.1 hbad.2] at h
    cases h
    simp [genSamples]

/-- The update of line 27 maps the base frequency 440 to itself, so the
active frequency of a base-440 run is 440 at every index. -/
theorem activeFreq_of_base_440 (sample_rate : ℤ) (i : ℕ) :
    activeFreq sample_rate 440 i = 440 := by
  induction i with
  | zero => rfl
  | succ n ih =>
    rw [activeFreq, ih, freqStep]
    split <;> simp

/-- Truncation toward zero of a rational bounded by 9830.1 in absolute
value lies in `[-9830, 9830]`. -/
theorem intTrunc_bounds (q : ℚ) (h : |q| ≤ 98301 / 10) :
    -9830 ≤ intTrunc q ∧ intTrunc q ≤ 9830 := by
  rw [abs_le] at h
  rw [intTrunc]
  split
  · rename_i hq
    constructor
    · have := Int.floor_nonneg.mpr hq
      omega
    · have : ⌊q⌋ < 9831 := by
        rw [Int.floor_lt]
        push_cast
        linarith [h.2]
      omega
  · rename_i hq
    have hq0 : q ≤ 0 := le_of_not_le hq
    have hle : ⌈q⌉ ≤ 0 := Int.ceil_le.mpr (by exact_mod_cast hq0)
    have hgt : -9831 < ⌈q⌉ := by
      rw [Int.lt_ceil]
      push_cast
      linarith [h.1]
    omega

/-- An in-range sample packs to its two little-endian bytes. -/
theorem packH_eq_some (s : ℤ) (h : -32768 ≤ s ∧ s ≤ 32767) :
    packH s = some (le16 s) := if_pos h

/-- Mapping `packH` over an all-in-range list succeeds elementwise. -/
theorem mapM_packH_eq (samples : List ℤ)
    (h : ∀ s ∈ samples, -32768 ≤ s ∧ s ≤ 32767) :
    samples.mapM packH = some (samples.map le16) := by
  induction samples with
  | nil => rfl
  | cons a l ih =>
    rw [List.mapM_cons, packH_eq_some a (h a (List.mem_cons_self a l)),
      ih fun s hs => h s (List.mem_cons_of_mem a hs)]
    rfl

/-- Packing an all-in-range list yields the concatenation of the
two-byte encodings. -/
theorem packSamples_eq (samples : List ℤ)
    (h : ∀ s ∈ samples, -32768 ≤ s ∧ s ≤ 32767) :
    packSamples samples = some ((samples.map le16).flatten) := by
  rw [packSamples, mapM_packH_eq samples h]
  rfl

/-- Mapping `packH` succeeds exactly when every sample is in the 16-bit
signed range. -/
theorem mapM_packH_isSome_iff (samples : List ℤ) :
    (samples.mapM packH).isSome = true ↔
      ∀ s ∈ samples, -32768 ≤ s ∧ s ≤ 32767 := by
  induction samples with
  | nil =>
    rw [List.mapM_nil]
    simp
  | cons a l ih =>
    rw [List.mapM_cons]
    by_cases ha : -32768 ≤ a ∧ a ≤ 32767
    · rw [packH_eq_some a ha]
      simp only [Option.bind_eq_bind, Option.some_bind]
      rcases hml : l.mapM packH with _ | bs
      · rw [hml] at ih
        apply iff_of_false
        · simp
        · intro hall
          have hfalse : (none : Option (List (List ℕ))).isSome = true :=
            ih.mpr fun s hs => hall s (List.mem_cons_of_mem a hs)
          cases hfalse
      · rw [hml] at ih
        apply iff_of_true
        · rfl
        · intro s hs
          rcases List.mem_cons.mp hs with rfl | hmem
          · exact ha
          · exact (ih.mp rfl) s hmem
    · rw [packH, if_neg ha]
      apply iff_of_false
      · simp
      · intro hall
        exact ha (hall a (List.mem_cons_self a l))

/-- Packing succeeds exactly when every sample is in the 16-bit signed
range. -/
theorem packSamples_isSome_iff (samples : List ℤ) :
    (packSamples samples).isSome = true ↔
      ∀ s ∈ samples, -32768 ≤ s ∧ s ≤ 32767 := by
  rw [← mapM_packH_isSome_iff samples, packSamples]
  rcases hm : samples.mapM packH with _ | bs <;> rfl

/-- Two bytes per encoded sample. -/
theorem flatten_map_le16_length (samples : List ℤ) :
    ((samples.map le16).flatten).length = 2 * samples.length := by
  induction samples with
  | nil => rfl
  | cons a l ih =>
    have h2 : (le16 a).length = 2 := rfl
    rw [List.map_cons, List.flatten_cons, List.length_append, h2, ih, List.length_cons]
    omega

/-- A successful packing output is the elementwise encoding, so it is
twice as long as the sample list. -/
theorem packSamples_length (samples : List ℤ) (data : List ℕ)
    (h : packSamples samples = some data) : data.length = 2 * samples.length := by
  have hrange : ∀ s ∈ samples, -32768 ≤ s ∧ s ≤ 32767 := by
    rw [← packSamples_isSome_iff, h]
    rfl
  rw [packSamples_eq samples hrange] at h
  cases h
  exact flatten_map_le16_length samples

/-- The channel-count field of a written container reads back as 1. -/
theorem decodeNumChannels_wavBytes (sample_rate : ℕ) (data : List ℕ) :
    decodeNumChannels (wavBytes sample_rate data) = 1 := by
  simp [decodeNumChannels, readU16, wavBytes, u16le, u32le, List.getD]

/-- The bits-per-sample field of a written container reads back as 16. -/
theorem decodeBitsPerSample_wavBytes (sample_rate : ℕ) (data : List ℕ) :
    decodeBitsPerSample (wavBytes sample_rate data) = 16 := by
  simp [decodeBitsPerSample, readU16, wavBytes, u16le, u32le, List.getD]

/-- The sample-rate field of a written container reads back as the
configured rate, for rates below 2^32. -/
theorem decodeSampleRate_wavBytes (sample_rate : ℕ) (data : List ℕ)
    (h : sample_rate < 4294967296) :
    decodeSampleRate (wavBytes sample_rate data) = sample_rate := by
  have heq : decodeSampleRate (wavBytes sample_rate data) =
      sample_rate % 256 + 256 * (sample_rate / 256 % 256) +
        65536 * (sample_rate / 65536 % 256) +
        16777216 * (sample_rate / 16777216 % 256) := by
    simp [decodeSampleRate, readU32, wavBytes, u16le, u32le, List.getD]
  rw [heq]
  omega

/-- The data-chunk length field of a written container reads back as the
payload byte count, for payloads below 2^32 bytes. -/
theorem decodeDataLen_wavBytes (sample_rate : ℕ) (data : List ℕ)
    (h : data.length < 4294967296) :
    decodeDataLen (wavBytes sample_rate data) = data.length := by
  have heq : decodeDataLen (wavBytes sample_rate data) =
      data.length % 256 + 256 * (data.length / 256 % 256) +
        65536 * (data.length / 65536 % 256) +
        16777216 * (data.length / 16777216 % 256) := by
    simp [decodeDataLen, readU32, wavBytes, u16le, u32le, List.getD]
  rw [heq]
  omega

/-- A written container carries the "RIFF", "WAVE" and "data" tags. -/
theorem hasRiffWaveTags_wavBytes (sample_rate : ℕ) (data : List ℕ) :
    hasRiffWaveTags (wavBytes sample_rate data) = true := by
  simp [hasRiffWaveTags, wavBytes, u16le, u32le]

/-- C1: the claim says a base-440 run toggles the active frequency to 523
at every boundary `i % (sample_rate // 2) == 0` and so alternates between
the two pitches. In the code (line 27) the update is
`440 if frequency == 440 else 523`, which maps 440 to itself, so every
sample of a base-440 run is computed at frequency 440 and the tone never
alternates: the sample at every index `i` of any successful base-440 run
equals the closed-form sample at frequency 440. -/
theorem C1_base_440_never_alternates (sinQ : ℚ → ℚ) (piQ : ℚ)
    (duration : ℚ) (sample_rate : ℤ) (out : List ℤ)
    (h : create_test_audio_samples sinQ piQ duration 440 sample_rate = some out)
    (i : ℕ) (hi : i < out.length) :
    out.get ⟨i, hi⟩ = sampleAt sinQ piQ sample_rate 440 i := by
  rw [create_samples_get sinQ piQ duration 440 sample_rate out h i hi,
    activeFreq_of_base_440]

/-- Witness for C1: a concrete base-440 run (duration 1, sample rate 2)
produces two samples, and the sample at index 0 is the frequency-440
closed form. -/
theorem C1_base_440_never_alternates_witness :
    create_test_audio_samples (fun _ => 0) (355 / 113) 1 440 2 = some [0, 0] ∧
      ([0, 0] : List ℤ).get ⟨0, by norm_num⟩ =
        sampleAt (fun _ => 0) (355 / 113) 2 440 0 := by
  have hn : (intTrunc ((1 : ℚ) * ((2 : ℤ) : ℚ))).toNat = 2 := by
    rw [intTrunc, if_pos (by norm_num)]
    norm_num
    decide
  have hcreate : create_test_audio_samples (fun _ => 0) (355 / 113) 1 440 2 = some [0, 0] := by
    rw [create_samples_eq (fun _ => 0) (355 / 113) 1 440 2 (by norm_num) (by decide), hn,
      genSamples, show List.range 2 = [0, 1] from by decide]
    simp [sampleAt, intTrunc]
  exact ⟨hcreate,
    C1_base_440_never_alternates (fun _ => 0) (355 / 113) 1 2 [0, 0] hcreate 0 (by norm_num)⟩

/-- C2 counterexample: with an admissible sine stand-in that returns
19/20 (a value the real sine also attains up to rounding), each produced
sample is 9338 = trunc(9338.595), while round(19/20 * 0.3 * 32767) =
9339: quantization truncates toward zero instead of rounding to
nearest. -/
theorem C2_quantization_counterexample :
    create_test_audio_samples (fun _ => 19 / 20) (355 / 113) 1 440 2 = some [9338, 9338] ∧
      round ((19 / 20 : ℚ) * (3 / 10) * 32767) = 9339 ∧ (9338 : ℤ) ≠ 9339 := by
  have hn : (intTrunc ((1 : ℚ) * ((2 : ℤ) : ℚ))).toNat = 2 := by
    rw [intTrunc, if_pos (by norm_num)]
    norm_num
    decide
  refine ⟨?_, ?_, by decide⟩
  · rw [create_samples_eq (fun _ => 19 / 20) (355 / 113) 1 440 2 (by norm_num) (by decide), hn,
      genSamples, show List.range 2 = [0, 1] from by decide]
    simp only [List.map_cons, List.map_nil, sampleAt, intTrunc]
    norm_num
  · rw [round_eq]
    norm_num

/-- C2 amended: every produced sample is the truncation toward zero (the
Python `int()` of line 30), not the rounding to nearest, of
`sin(2*pi*f*t) * 0.3 * 32767`, with `f` the active frequency at the
index and `t = i / sample_rate`. -/
theorem C2_amended_truncating_quantization (sinQ : ℚ → ℚ) (piQ : ℚ)
    (duration : ℚ) (frequency sample_rate : ℤ) (out : List ℤ)
    (h : create_test_audio_samples sinQ piQ duration frequency sample_rate = some out)
    (i : ℕ) (hi : i < out.length) :
    out.get ⟨i, hi⟩ =
      intTrunc (sinQ (2 * piQ * ((activeFreq sample_rate frequency i : ℤ) : ℚ) *
        ((i : ℚ) / (sample_rate : ℚ))) * (3 / 10) * 32767) :=
  create_samples_get sinQ piQ duration frequency sample_rate out h i hi

/-- Witness for C2 amended: in the concrete run of the counterexample,
the sample at index 1 is the truncated value. -/
theorem C2_amended_truncating_quantization_witness :
    create_test_audio_samples (fun _ => 19 / 20) (355 / 113) 1 440 2 = some [9338, 9338] ∧
      ([9338, 9338] : List ℤ).get ⟨1, by norm_num⟩ =
        intTrunc ((fun _ : ℚ => (19 / 20 : ℚ)) (2 * (355 / 113) * ((activeFreq 2 440 1 : ℤ) : ℚ) *
          ((1 : ℚ) / ((2 : ℤ) : ℚ))) * (3 / 10) * 32767) := by
  have hn : (intTrunc ((1 : ℚ) * ((2 : ℤ) : ℚ))).toNat = 2 := by
    rw [intTrunc, if_pos (by norm_num)]
    norm_num
    decide
  have hcreate :
      create_test_audio_samples (fun _ => 19 / 20) (355 / 113) 1 440 2 = some [9338, 9338] := by
    rw [create_samples_eq (fun _ => 19 / 20) (355 / 113) 1 440 2 (by norm_num) (by decide), hn,
      genSamples, show List.range 2 = [0, 1] from by decide]
    simp only [List.map_cons, List.map_nil, sampleAt, intTrunc]
    norm_num
  exact ⟨hcreate,
    C2_amended_truncating_quantization (fun _ => 19 / 20) (355 / 113) 1 440 2 [9338, 9338]
      hcreate 1 (by norm_num)⟩

/-- C3: for positive duration and positive sample rate, any produced
sample sequence has exactly `floor(duration * sample_rate)` entries
(`int()` truncation coincides with floor on a positive product). -/
theorem C3_length_is_floor (sinQ : ℚ → ℚ) (piQ : ℚ)
    (duration : ℚ) (frequency sample_rate : ℤ) (out : List ℤ)
    (hd : 0 < duration) (hsr : 0 < sample_rate)
    (h : create_test_audio_samples sinQ piQ duration frequency sample_rate = some out) :
    (out.length : ℤ) = ⌊duration * (sample_rate : ℚ)⌋ := by
  have hlen := create_samples_length sinQ piQ duration frequency sample_rate out h
  have hq : (0 : ℚ) ≤ duration * (sample_rate : ℚ) := by
    have : (0 : ℚ) ≤ (sample_rate : ℚ) := by exact_mod_cast hsr.le
    positivity
  rw [hlen, intTrunc, if_pos hq, Int.toNat_of_nonneg (Int.floor_nonneg.mpr hq)]

/-- Witness for C3: duration 1 at sample rate 2 yields 2 = floor(2)
samples. -/
theorem C3_length_is_floor_witness :
    (0 : ℚ) < 1 ∧ (0 : ℤ) < 2 ∧
      create_test_audio_samples (fun _ => 0) (355 / 113) 1 440 2 = some [0, 0] ∧
      (([0, 0] : List ℤ).length : ℤ) = ⌊(1 : ℚ) * ((2 : ℤ) : ℚ)⌋ := by
  have hn : (intTrunc ((1 : ℚ) * ((2 : ℤ) : ℚ))).toNat = 2 := by
    rw [intTrunc, if_pos (by norm_num)]
    norm_num
    decide
  have hcreate : create_test_audio_samples (fun _ => 0) (355 / 113) 1 440 2 = some [0, 0] := by
    rw [create_samples_eq (fun _ => 0) (355 / 113) 1 440 2 (by norm_num) (by decide), hn,
      genSamples, show List.range 2 = [0, 1] from by decide]
    simp [sampleAt, intTrunc]
  exact ⟨by norm_num, by norm_num, hcreate,
    C3_length_is_floor (fun _ => 0) (355 / 113) 1 440 2 [0, 0] (by norm_num) (by norm_num)
      hcreate⟩

/-- C4 counterexample: duration 1/2 at sample rate 3 produces 1 sample
(`int(1.5) = 1`), while `round(1.5) = 2`: the length is the truncation,
not the rounding, of `duration * sample_rate`. -/
theorem C4_length_counterexample :
    create_test_audio_samples (fun _ => 0) (355 / 113) (1 / 2) 440 3 = some [0] ∧
      ([0] : List ℤ).length = 1 ∧
      round ((1 / 2 : ℚ) * ((3 : ℤ) : ℚ)) = 2 ∧ (1 : ℤ) ≠ 2 := by
  have hn : (intTrunc ((1 / 2 : ℚ) * ((3 : ℤ) : ℚ))).toNat = 1 := by
    rw [intTrunc, if_pos (by norm_num)]
    norm_num
  refine ⟨?_, rfl, ?_, by decide⟩
  · rw [create_samples_eq (fun _ => 0) (355 / 113) (1 / 2) 440 3 (by norm_num) (by decide), hn,
      genSamples, show List.range 1 = [0] from by decide]
    simp [sampleAt, intTrunc]
  · rw [round_eq]
    norm_num

/-- C4 amended: any produced sample sequence has exactly
`int(duration * sample_rate)` entries, with `int()` the truncation toward
zero of line 16 (and an empty sequence when the product is negative). -/
theorem C4_amended_length_is_trunc (sinQ : ℚ → ℚ) (piQ : ℚ)
    (duration : ℚ) (frequency sample_rate : ℤ) (out : List ℤ)
    (h : create_test_audio_samples sinQ piQ duration frequency sample_rate = some out) :
    out.length = (intTrunc (duration * (sample_rate : ℚ))).toNat :=
  create_samples_length sinQ piQ duration frequency sample_rate out h

/-- Witness for C4 amended: the run of the counterexample has
`int(1.5) = 1` entry. -/
theorem C4_amended_length_is_trunc_witness :
    create_test_audio_samples (fun _ => 0) (355 / 113) (1 / 2) 440 3 = some [0] ∧
      ([0] : List ℤ).length = (intTrunc ((1 / 2 : ℚ) * ((3 : ℤ) : ℚ))).toNat := by
  have hn : (intTrunc ((1 / 2 : ℚ) * ((3 : ℤ) : ℚ))).toNat = 1 := by
    rw [intTrunc, if_pos (by norm_num)]
    norm_num
  have hcreate :
      create_test_audio_samples (fun _ => 0) (355 / 113) (1 / 2) 440 3 = some [0] := by
    rw [create_samples_eq (fun _ => 0) (355 / 113) (1 / 2) 440 3 (by norm_num) (by decide), hn,
      genSamples, show List.range 1 = [0] from by decide]
    simp [sampleAt, intTrunc]
  exact ⟨hcreate,
    C4_amended_length_is_trunc (fun _ => 0) (355 / 113) (1 / 2) 440 3 [0] hcreate⟩

/-- C5 counterexample: duration 1 (positive) at the positive sample rate
1 makes the first loop iteration evaluate `i % (1 // 2)`, a division by
zero: generation raises instead of completing. -/
theorem C5_division_by_zero_counterexample :
    (0 : ℚ) < 1 ∧ (0 : ℤ) < 1 ∧
      create_test_audio_samples (fun _ => 0) (355 / 113) 1 440 1 = none := by
  refine ⟨by norm_num, by norm_num, ?_⟩
  apply create_samples_eq_none
  · right
    decide
  · rw [intTrunc, if_pos (by norm_num)]
    norm_num

/-- C5 amended: for every sample rate of at least 2 (and any duration and
base frequency), generation completes without an error: the toggle
divisor `sample_rate // 2` is then nonzero at every iteration. -/
theorem C5_amended_no_error_for_rate_ge_two (sinQ : ℚ → ℚ) (piQ : ℚ)
    (duration : ℚ) (frequency sample_rate : ℤ)
    (hsr : 2 ≤ sample_rate) :
    (create_test_audio_samples sinQ piQ duration frequency sample_rate).isSome = true := by
  have h0 : sample_rate ≠ 0 := by omega
  have h2 : Int.fdiv sample_rate 2 ≠ 0 := by
    obtain ⟨m, rfl⟩ : ∃ m : ℕ, sample_rate = (m : ℤ) :=
      ⟨sample_rate.toNat, (Int.toNat_of_nonneg (by omega)).symm⟩
    have hm : 2 ≤ m := by exact_mod_cast hsr
    have hdiv : 1 ≤ m / 2 := (Nat.one_le_div_iff (by norm_num)).mpr hm
    have hfd : Int.fdiv (m : ℤ) 2 = ((m / 2 : ℕ) : ℤ) := by
      exact_mod_cast (Int.ofNat_fdiv m 2).symm
    rw [hfd]
    omega
  rw [create_samples_eq sinQ piQ duration frequency sample_rate h0 h2]
  rfl

/-- Witness for C5 amended: sample rate 2 satisfies the bound and the
run succeeds. -/
theorem C5_amended_no_error_witness :
    (2 : ℤ) ≤ 2 ∧
      (create_test_audio_samples (fun _ => 0) (355 / 113) 1 440 2).isSome = true :=
  ⟨le_refl 2,
    C5_amended_no_error_for_rate_ge_two (fun _ => 0) (355 / 113) 1 440 2 (le_refl 2)⟩

/-- For a sine stand-in bounded by 1 in absolute value, every quantized
sample lies in `[-9830, 9830]`. -/
theorem sampleAt_bounds (sinQ : ℚ → ℚ) (piQ : ℚ)
    (hsin : ∀ x : ℚ, |sinQ x| ≤ 1) (sample_rate f : ℤ) (i : ℕ) :
    -9830 ≤ sampleAt sinQ piQ sample_rate f i ∧
      sampleAt sinQ piQ sample_rate f i ≤ 9830 := by
  apply intTrunc_bounds
  have h1 := hsin (2 * piQ * (f : ℚ) * ((i : ℚ) / (sample_rate : ℚ)))
  have habs := abs_nonneg (sinQ (2 * piQ * (f : ℚ) * ((i : ℚ) / (sample_rate : ℚ))))
  rw [abs_mul, abs_mul, show |(3 / 10 : ℚ)| = 3 / 10 from by norm_num,
    show |(32767 : ℚ)| = 32767 from by norm_num]
  nlinarith [h1, habs]

/-- C6: with the sine bounded by 1 in absolute value, every produced
sample lies in the 16-bit signed range, and in fact within the tighter
bound `|sample| ≤ 9830 = round(0.3 * 32767)`. -/
theorem C6_sample_bounds (sinQ : ℚ → ℚ) (piQ : ℚ)
    (duration : ℚ) (frequency sample_rate : ℤ) (out : List ℤ)
    (hsin : ∀ x : ℚ, |sinQ x| ≤ 1)
    (h : create_test_audio_samples sinQ piQ duration frequency sample_rate = some out) :
    ∀ s ∈ out, (-32768 ≤ s ∧ s ≤ 32767) ∧ -9830 ≤ s ∧ s ≤ 9830 := by
  intro s hs
  obtain ⟨idx, rfl⟩ := List.mem_iff_get.mp hs
  rw [create_samples_get sinQ piQ duration frequency sample_rate out h idx.1 idx.2]
  have hb := sampleAt_bounds sinQ piQ hsin sample_rate
    (activeFreq sample_rate frequency idx.1) idx.1
  exact ⟨⟨by omega, by omega⟩, hb⟩

/-- Witness for C6: a run with the sine stand-in constantly 1 produces
two samples equal to 9830 = trunc(0.3 * 32767), which meet both
bounds. -/
theorem C6_sample_bounds_witness :
    create_test_audio_samples (fun _ => 1) (355 / 113) 1 440 2 = some [9830, 9830] ∧
      ((-32768 ≤ (9830 : ℤ) ∧ (9830 : ℤ) ≤ 32767) ∧
        -9830 ≤ (9830 : ℤ) ∧ (9830 : ℤ) ≤ 9830) := by
  have hn : (intTrunc ((1 : ℚ) * ((2 : ℤ) : ℚ))).toNat = 2 := by
    rw [intTrunc, if_pos (by norm_num)]
    norm_num
    decide
  have hcreate :
      create_test_audio_samples (fun _ => 1) (355 / 113) 1 440 2 = some [9830, 9830] := by
    rw [create_samples_eq (fun _ => 1) (355 / 113) 1 440 2 (by norm_num) (by decide), hn,
      genSamples, show List.range 2 = [0, 1] from by decide]
    simp only [List.map_cons, List.map_nil, sampleAt, intTrunc]
    norm_num
  exact ⟨hcreate,
    C6_sample_bounds (fun _ => 1) (355 / 113) 1 440 2 [9830, 9830]
      (fun x => by norm_num) hcreate 9830 (by simp)⟩

/-- C7: an all-in-range sample list packs to exactly the concatenation of
the per-sample two-byte little-endian encodings, in order, so the payload
is `2 * num_samples` bytes long. -/
theorem C7_payload_layout (samples : List ℤ)
    (h : ∀ s ∈ samples, -32768 ≤ s ∧ s ≤ 32767) :
    packSamples samples = some ((samples.map le16).flatten) ∧
      ((samples.map le16).flatten).length = 2 * samples.length :=
  ⟨packSamples_eq samples h, flatten_map_le16_length samples⟩

/-- Witness for C7: four representative in-range samples pack to eight
bytes, elementwise and in order. -/
theorem C7_payload_layout_witness :
    (∀ s ∈ ([0, -1, 32767, -32768] : List ℤ), -32768 ≤ s ∧ s ≤ 32767) ∧
      packSamples [0, -1, 32767, -32768] =
        some ((([0, -1, 32767, -32768] : List ℤ).map le16).flatten) ∧
      ((([0, -1, 32767, -32768] : List ℤ).map le16).flatten).length =
        2 * ([0, -1, 32767, -32768] : List ℤ).length :=
  ⟨by decide, C7_payload_layout [0, -1, 32767, -32768] (by decide)⟩

/-- C8: reading back a written container yields one channel, 16 bits per
sample, the configured sample rate, and a frame count equal to the
sample-sequence length (for a sample rate below 2^32 and fewer than 2^31
samples, so the 32-bit header fields cannot wrap). -/
theorem C8_roundtrip (samples : List ℤ) (data : List ℕ) (sample_rate : ℕ)
    (hpack : packSamples samples = some data)
    (hsr : sample_rate < 4294967296)
    (hlen : samples.length < 2147483648) :
    decodeNumChannels (wavBytes sample_rate data) = 1 ∧
      decodeBitsPerSample (wavBytes sample_rate data) = 16 ∧
      decodeSampleRate (wavBytes sample_rate data) = sample_rate ∧
      decodeFrameCount (wavBytes sample_rate data) = samples.length := by
  have hdl := packSamples_length samples data hpack
  refine ⟨decodeNumChannels_wavBytes sample_rate data,
    decodeBitsPerSample_wavBytes sample_rate data,
    decodeSampleRate_wavBytes sample_rate data hsr, ?_⟩
  rw [decodeFrameCount, decodeNumChannels_wavBytes, decodeBitsPerSample_wavBytes,
    decodeDataLen_wavBytes sample_rate data (by omega)]
  omega

/-- Witness for C8: two samples at rate 8000 read back as mono, 16-bit,
rate 8000, 2 frames. -/
theorem C8_roundtrip_witness :
    packSamples [1, -2] = some [1, 0, 254, 255] ∧
      decodeNumChannels (wavBytes 8000 [1, 0, 254, 255]) = 1 ∧
      decodeBitsPerSample (wavBytes 8000 [1, 0, 254, 255]) = 16 ∧
      decodeSampleRate (wavBytes 8000 [1, 0, 254, 255]) = 8000 ∧
      decodeFrameCount (wavBytes 8000 [1, 0, 254, 255]) = ([1, -2] : List ℤ).length :=
  ⟨by decide,
    C8_roundtrip [1, -2] [1, 0, 254, 255] 8000 (by decide) (by norm_num) (by decide)⟩

/-- C9: packing succeeds exactly when every sample is in the 16-bit
signed range; an out-of-range sample makes the writer fail (`none`)
instead of truncating, clamping or wrapping it into the output. -/
theorem C9_range_check (samples : List ℤ) :
    (packSamples samples).isSome = true ↔
      ∀ s ∈ samples, -32768 ≤ s ∧ s ≤ 32767 :=
  packSamples_isSome_iff samples

/-- C10: for a non-positive duration and a positive sample rate, the
program raises no error: the generator yields the empty sample sequence
and the writer still emits a well-formed container whose data chunk is
zero bytes long. -/
theorem C10_nonpositive_duration_empty_wav (sinQ : ℚ → ℚ) (piQ : ℚ)
    (duration : ℚ) (frequency sample_rate : ℤ)
    (hd : duration ≤ 0) (hsr : 0 < sample_rate) :
    create_test_audio_samples sinQ piQ duration frequency sample_rate = some [] ∧
      create_test_audio sinQ piQ duration frequency sample_rate =
        some (wavBytes sample_rate.toNat []) ∧
      decodeDataLen (wavBytes sample_rate.toNat []) = 0 ∧
      decodeFrameCount (wavBytes sample_rate.toNat []) = 0 ∧
      hasRiffWaveTags (wavBytes sample_rate.toNat []) = true := by
  have hq : duration * (sample_rate : ℚ) ≤ 0 := by
    have hsr0 : (0 : ℚ) ≤ (sample_rate : ℚ) := by exact_mod_cast hsr.le
    exact mul_nonpos_of_nonpos_of_nonneg hd hsr0
  have hn : (intTrunc (duration * (sample_rate : ℚ))).toNat = 0 := by
    rw [intTrunc]
    split
    · rename_i hpos
      have hzero : duration * (sample_rate : ℚ) = 0 := le_antisymm hq hpos
      rw [hzero]
      simp
    · have hceil : ⌈duration * (sample_rate : ℚ)⌉ ≤ 0 :=
        Int.ceil_le.mpr (by exact_mod_cast hq)
      omega
  have hsamples :
      create_test_audio_samples sinQ piQ duration frequency sample_rate = some [] := by
    simp only [create_test_audio_samples]
    rw [hn]
    rfl
  have hdl : decodeDataLen (wavBytes sample_rate.toNat []) = 0 :=
    decodeDataLen_wavBytes sample_rate.toNat [] (by norm_num)
  refine ⟨hsamples, ?_, hdl, ?_, hasRiffWaveTags_wavBytes sample_rate.toNat []⟩
  · simp only [create_test_audio]
    rw [hsamples]
    rfl
  · rw [decodeFrameCount, hdl]
    simp

/-- Witness for C10: duration -1 at sample rate 44100 produces the empty
sequence and a well-formed empty container. -/
theorem C10_nonpositive_duration_empty_wav_witness :
    create_test_audio_samples (fun _ => 0) (355 / 113) (-1) 440 44100 = some [] ∧
      create_test_audio (fun _ => 0) (355 / 113) (-1) 440 44100 =
        some (wavBytes (Int.toNat 44100) []) ∧
      decodeDataLen (wavBytes (Int.toNat 44100) []) = 0 ∧
      decodeFrameCount (wavBytes (Int.toNat 44100) []) = 0 ∧
      hasRiffWaveTags (wavBytes (Int.toNat 44100) []) = true :=
  C10_nonpositive_duration_empty_wav (fun _ => 0) (355 / 113) (-1) 440 44100
    (by norm_num) (by norm_num)

end CreateTestAudio
